import Mathlib

/-!
Metaphor CUDA kernel header: embedding and checked properties.

A shallow embedding of `src/cuda/kernel_header.h` (numeric helpers, reduction
operators, `warpReduce`, `blockReduce`, grid sizing) and of the declaration
surface of `src/cuda/kernel_decls.h`.

Conventions of the embedding:

* scalars of a template type `T` are values of a Lean type `T`; where a property
  is about exact arithmetic the type is a field or `Int`/`Rat`;
* a warp is a function from lane index to the value that lane holds; a lane
  exchange `__shfl_xor_sync(full, value, mask, WARP_SIZE)` hands lane `l` the
  value held by lane `l ^^^ mask` before the step;
* a thread block is executed phase by phase, a phase being the code between two
  `__syncthreads()` barriers; within a phase the threads run one after the
  other in the order of `blockThreads` (`blockReduce_schedule_irrelevant` shows
  that any other order gives the same result);
* the `__shared__` array `cache` is a function from slot index to value;
* a half-precision bit pattern is a natural number, decoded by `ieeeDecode`;
* a finite `double` is the rational it denotes; double subtraction is the exact
  difference rounded to the nearest binary64 value, ties to even (`roundDouble`);
* a status handler returns an `Outcome`: what it printed and how it ended.
-/

set_option linter.unusedVariables false

namespace Metaphor

/-! Grid sizing -/

/-- The macro `DIMPAD(M, N) (((M) + ((N) - 1)) / (N))`. -/
def DIMPAD (M N : Nat) : Nat := (M + (N - 1)) / N

/-- The macro `GRID_1D(N) (((N) / 32) + 1)`. -/
def GRID_1D (N : Nat) : Nat := (N / 32) + 1

/-! Complex arithmetic -/

/-- The complex scalar types `c16`, `c32`, `c64`: a pair of reals `r`, `i`. -/
structure CScalar (R : Type) where
  r : R
  i : R
deriving DecidableEq, Repr

/-- Squared magnitude, `conjmul(x) = x.r * x.r + x.i * x.i`. -/
def conjmul {R : Type} [Add R] [Mul R] (x : CScalar R) : R :=
  x.r * x.r + x.i * x.i

/-- The template `cdiv`: `auto u = conjmul(y); return T{ x.r / u, x.i / u }`. -/
def cdiv {R : Type} [Add R] [Mul R] [Div R] (x y : CScalar R) : CScalar R :=
  let u := conjmul y
  ⟨x.r / u, x.i / u⟩

/-- The quotient the specification gives for `cdiv`: `x * conj(y) / |y|^2`. -/
def cdivSpec {R : Type} [Add R] [Sub R] [Mul R] [Div R] (x y : CScalar R) : CScalar R :=
  ⟨(x.r * y.r + x.i * y.i) / conjmul y, (x.i * y.r - x.r * y.i) / conjmul y⟩

/-- The template `cmul`. -/
def cmul {R : Type} [Add R] [Sub R] [Mul R] (x y : CScalar R) : CScalar R :=
  ⟨x.r * y.r - x.i * y.i, x.r * y.i + x.i * y.r⟩

/-- The template `ctanh`, with the real functions `rtanh` and `rtan` given:
`a = rtanh(x.r); b = rtan(x.i); return cdiv(T{a, b}, T{1.0, a * b})`. -/
def ctanh {R : Type} [Add R] [Mul R] [Div R] [One R] (rtanh rtan : R → R)
    (x : CScalar R) : CScalar R :=
  let a := rtanh x.r
  let b := rtan x.i
  cdiv ⟨a, b⟩ ⟨1, a * b⟩

/-- The template `rsqr`. -/
def rsqr {R : Type} [Mul R] (x : R) : R := x * x

/-! Reduction operators -/

/-- Operator `MaxOP::apply`: `(x > y) ? x : y`. -/
def MaxOP.apply {T : Type} [LT T] [DecidableRel (fun a b : T => a < b)] (x y : T) : T :=
  if x > y then x else y

/-- Operator `MinOP::apply`: `(x < y) ? x : y`. -/
def MinOP.apply {T : Type} [LT T] [DecidableRel (fun a b : T => a < b)] (x y : T) : T :=
  if x < y then x else y

/-- Operator `AddOP::apply`: `x + y`. -/
def AddOP.apply {T : Type} [Add T] (x y : T) : T := x + y

/-- Operator `MulOP::apply`: `x * y`. -/
def MulOP.apply {T : Type} [Mul T] (x y : T) : T := x * y

/-- Operator `DivOP::apply`: `x / y`. -/
def DivOP.apply {T : Type} [Div T] (x y : T) : T := x / y

/-- Operator `SubOP::apply`: `x - y`. -/
def SubOP.apply {T : Type} [Sub T] (x y : T) : T := x - y

/-- Operator `ClipOP::apply`: `MinOP::apply(MaxOP::apply(x, lower), upper)`. -/
def ClipOP.apply {T : Type} [LT T] [DecidableRel (fun a b : T => a < b)]
    (x lower upper : T) : T :=
  MinOP.apply (MaxOP.apply x lower) upper

/-! Warp and block reduction -/

/-- Modelled from the spec: the constant `WARP_SIZE` is defined outside the two
source files; the specification fixes the warp width at 32 lanes. -/
def WARP_SIZE : Nat := 32

/-- One iteration of the loop of `warpReduce`, for all lanes at once:
`value = OP::apply(value, __shfl_xor_sync(0xffffffff, value, mask, WARP_SIZE))`. -/
def shflXorApply {T : Type} (op : T → T → T) (mask : Nat) (value : Nat → T) : Nat → T :=
  fun lane => op (value lane) (value (lane ^^^ mask))

/-- The loop `for (; mask > 0; mask >>= 1)` of `warpReduce`, started at `mask`. -/
def warpReduceLoop {T : Type} (op : T → T → T) (mask : Nat) (value : Nat → T) : Nat → T :=
  if 0 < mask then
    warpReduceLoop op (mask >>> 1) (shflXorApply op mask value)
  else value
termination_by mask
decreasing_by
  simp only [Nat.shiftRight_succ, Nat.shiftRight_zero]
  omega

/-- The template `warpReduce<OP>`: lane `l` of the result is what lane `l`
returns when lane `j` of the warp passes `value j`. -/
def warpReduce {T : Type} (op : T → T → T) (value : Nat → T) : Nat → T :=
  warpReduceLoop op (WARP_SIZE >>> 1) value

/-- The left fold `OP(...OP(OP(c 0, c 1), c 2)..., c n)` of `c 0, ..., c n`. -/
def leftFold {T : Type} (op : T → T → T) (c : Nat → T) : Nat → T
  | 0 => c 0
  | n + 1 => op (leftFold op c n) (c (n + 1))

/-- The threads of a block of `N` full warps, as pairs (warp, lane). -/
def blockThreads (N : Nat) : List (Nat × Nat) :=
  List.product (List.range N) (List.range WARP_SIZE)

/-- First phase of `blockReduce`, one thread: `if (ctrl == 0) cache[idx] = rdx;`. -/
def storeLeader {T : Type} (cache : Nat → T) (rdx : T) (idx ctrl : Nat) : Nat → T :=
  if ctrl = 0 then Function.update cache idx rdx else cache

/-- The loop `for (len_t i = 1; i < N; ++i) tmp = OP::apply(tmp, cache[i]);`,
entered with counter `i` and accumulator `tmp`. -/
def foldCache {T : Type} (op : T → T → T) (N : Nat) (cache : Nat → T) (i : Nat) (tmp : T) : T :=
  if i < N then foldCache op N cache (i + 1) (op tmp (cache i)) else tmp
termination_by N - i

/-- Second phase of `blockReduce`, one thread:
`if (ctrl == 0 && idx == 0) { tmp = cache[0]; loop; cache[0] = tmp; }`. -/
def foldLeader {T : Type} (op : T → T → T) (N : Nat) (cache : Nat → T) (idx ctrl : Nat) :
    Nat → T :=
  if ctrl = 0 ∧ idx = 0 then
    Function.update cache 0 (foldCache op N cache 1 (cache 0))
  else cache

/-- Shared cache at the first barrier: every thread has run the first phase. -/
def cacheAfterStore {T : Type} (op : T → T → T) (N : Nat) (value : Nat → Nat → T)
    (cache : Nat → T) : Nat → T :=
  (blockThreads N).foldl
    (fun c t => storeLeader c (warpReduce op (value t.1) t.2) t.1 t.2) cache

/-- Shared cache at the second barrier: every thread has run the second phase. -/
def cacheAfterFold {T : Type} (op : T → T → T) (N : Nat) (value : Nat → Nat → T)
    (cache : Nat → T) : Nat → T :=
  (blockThreads N).foldl (fun c t => foldLeader op N c t.1 t.2)
    (cacheAfterStore op N value cache)

/-- The template `blockReduce<OP, N>` run by a block of `N` full warps in which
thread (warp `w`, lane `l`) passes `value w l`, `idx = w` and `ctrl = l`;
`cache` is the content of the shared array on entry. The result at `w l` is what
thread (w, l) returns: `cache[0]` read after the second barrier. -/
def blockReduce {T : Type} (op : T → T → T) (N : Nat) (value : Nat → Nat → T)
    (cache : Nat → T) : Nat → Nat → T :=
  fun _ _ => cacheAfterFold op N value cache 0

/-! Launch declarations of `kernel_decls.h` -/

/-- Element types of the device buffers. -/
inductive Scalar
  | r16 | r32 | c16 | c32
deriving DecidableEq, Repr

/-- Parameter types occurring in the launch declarations. -/
inductive ParamType
  | StreamCtx
  | val (s : Scalar)
  | ptr (s : Scalar)
  | constPtr (s : Scalar)
  | len_t
  | RTensor16 | CTensor16 | RTensor32 | CTensor32
  | Permutation
deriving DecidableEq, Repr

/-- One `EXTERN_C void launch_...(...)` declaration: its name and the types of
its parameters, in order. -/
structure LaunchDecl where
  name : String
  params : List ParamType
deriving DecidableEq, Repr

/-- The declarations of `kernel_decls.h`, in file order. -/
def kernelDecls : List LaunchDecl := [
  ⟨"launch_tanh_r16", [.StreamCtx, .constPtr .r16, .ptr .r16, .len_t]⟩,
  ⟨"launch_tanh_r32", [.StreamCtx, .constPtr .r32, .ptr .r32, .len_t]⟩,
  ⟨"launch_inner_product_ij_j_r16", [.StreamCtx, .constPtr .r16, .constPtr .r16, .val .r16, .ptr .r16, .val .r16, .len_t, .len_t]⟩,
  ⟨"launch_inner_product_ij_j_r32", [.StreamCtx, .constPtr .r32, .constPtr .r32, .val .r32, .ptr .r32, .val .r32, .len_t, .len_t]⟩,
  ⟨"launch_hadamard_reverse_r16", [.StreamCtx, .ptr .r16, .constPtr .r16, .constPtr .r16, .len_t]⟩,
  ⟨"launch_hadamard_reverse_c16", [.StreamCtx, .ptr .c16, .constPtr .c16, .constPtr .c16, .len_t]⟩,
  ⟨"launch_hadamard_reverse_r32", [.StreamCtx, .ptr .r32, .constPtr .r32, .constPtr .r32, .len_t]⟩,
  ⟨"launch_hadamard_reverse_c32", [.StreamCtx, .ptr .c32, .constPtr .c32, .constPtr .c32, .len_t]⟩,
  ⟨"launch_outer_product_i_j_r16", [.StreamCtx, .constPtr .r16, .constPtr .r16, .val .r16, .ptr .r16, .val .r16, .len_t, .len_t]⟩,
  ⟨"launch_outer_product_i_j_r32", [.StreamCtx, .constPtr .r32, .constPtr .r32, .val .r32, .ptr .r32, .val .r32, .len_t, .len_t]⟩,
  ⟨"launch_subtraction_r16", [.StreamCtx, .constPtr .r16, .constPtr .r16, .ptr .r16, .len_t]⟩,
  ⟨"launch_subtraction_c16", [.StreamCtx, .constPtr .c16, .constPtr .c16, .ptr .c16, .len_t]⟩,
  ⟨"launch_subtraction_r32", [.StreamCtx, .constPtr .r32, .constPtr .r32, .ptr .r32, .len_t]⟩,
  ⟨"launch_subtraction_c32", [.StreamCtx, .constPtr .c32, .constPtr .c32, .ptr .c32, .len_t]⟩,
  ⟨"launch_leaky_relu_r16", [.StreamCtx, .constPtr .r16, .ptr .r16, .val .r16, .len_t]⟩,
  ⟨"launch_leaky_relu_r32", [.StreamCtx, .constPtr .r32, .ptr .r32, .val .r32, .len_t]⟩,
  ⟨"launch_transpose_2D_r16", [.StreamCtx, .constPtr .r16, .ptr .r16, .val .r16, .len_t, .len_t]⟩,
  ⟨"launch_transpose_2D_r32", [.StreamCtx, .constPtr .r32, .ptr .r32, .val .r32, .len_t, .len_t]⟩,
  ⟨"launch_fill_r16", [.StreamCtx, .ptr .r16, .val .r16, .len_t]⟩,
  ⟨"launch_fill_c16", [.StreamCtx, .ptr .c16, .val .c16, .len_t]⟩,
  ⟨"launch_fill_r32", [.StreamCtx, .ptr .r32, .val .r32, .len_t]⟩,
  ⟨"launch_fill_c32", [.StreamCtx, .ptr .c32, .val .c32, .len_t]⟩,
  ⟨"launch_perumutate_r16", [.RTensor16, .RTensor16, .Permutation]⟩,
  ⟨"launch_permutate_c16", [.CTensor16, .CTensor16, .Permutation]⟩,
  ⟨"launch_perumutate_r32", [.RTensor32, .RTensor32, .Permutation]⟩,
  ⟨"launch_permutate_c32", [.CTensor32, .CTensor32, .Permutation]⟩,
  ⟨"launch_relu_leaky_reverse_r16", [.StreamCtx, .constPtr .r16, .ptr .r16, .constPtr .r16, .val .r16, .len_t]⟩,
  ⟨"launch_relu_leaky_reverse_r32", [.StreamCtx, .constPtr .r32, .ptr .r32, .constPtr .r32, .val .r32, .len_t]⟩,
  ⟨"launch_addition_r16", [.StreamCtx, .constPtr .r16, .constPtr .r16, .ptr .r16, .len_t]⟩,
  ⟨"launch_addition_c16", [.StreamCtx, .constPtr .c16, .constPtr .c16, .ptr .c16, .len_t]⟩,
  ⟨"launch_addition_r32", [.StreamCtx, .constPtr .r32, .constPtr .r32, .ptr .r32, .len_t]⟩,
  ⟨"launch_addition_c32", [.StreamCtx, .constPtr .c32, .constPtr .c32, .ptr .c32, .len_t]⟩,
  ⟨"launch_inner_product_i_ij_r16", [.StreamCtx, .constPtr .r16, .constPtr .r16, .val .r16, .ptr .r16, .val .r16, .len_t, .len_t]⟩,
  ⟨"launch_inner_product_i_ij_r32", [.StreamCtx, .constPtr .r32, .constPtr .r32, .val .r32, .ptr .r32, .val .r32, .len_t, .len_t]⟩,
  ⟨"launch_addition_reverse_r16", [.StreamCtx, .ptr .r16, .constPtr .r16, .len_t]⟩,
  ⟨"launch_addition_reverse_c16", [.StreamCtx, .ptr .c16, .constPtr .c16, .len_t]⟩,
  ⟨"launch_addition_reverse_r32", [.StreamCtx, .ptr .r32, .constPtr .r32, .len_t]⟩,
  ⟨"launch_addition_reverse_c32", [.StreamCtx, .ptr .c32, .constPtr .c32, .len_t]⟩,
  ⟨"launch_matmul_2D_r16", [.StreamCtx, .constPtr .r16, .constPtr .r16, .val .r16, .ptr .r16, .val .r16, .len_t, .len_t, .len_t]⟩,
  ⟨"launch_matmul_2D_r32", [.StreamCtx, .constPtr .r32, .constPtr .r32, .val .r32, .ptr .r32, .val .r32, .len_t, .len_t, .len_t]⟩,
  ⟨"launch_sequence_r16", [.StreamCtx, .ptr .r16, .val .r16, .val .r16, .len_t]⟩,
  ⟨"launch_sequence_r32", [.StreamCtx, .ptr .r32, .val .r32, .val .r32, .len_t]⟩,
  ⟨"launch_subtraction_reverse_r16", [.StreamCtx, .ptr .r16, .constPtr .r16, .val .r16, .len_t]⟩,
  ⟨"launch_subtraction_reverse_c16", [.StreamCtx, .ptr .c16, .constPtr .c16, .val .r16, .len_t]⟩,
  ⟨"launch_subtraction_reverse_r32", [.StreamCtx, .ptr .r32, .constPtr .r32, .val .r32, .len_t]⟩,
  ⟨"launch_subtraction_reverse_c32", [.StreamCtx, .ptr .c32, .constPtr .c32, .val .r32, .len_t]⟩,
  ⟨"launch_tanh_reverse_r16", [.StreamCtx, .ptr .r16, .constPtr .r16, .constPtr .r16, .len_t]⟩,
  ⟨"launch_tanh_reverse_r32", [.StreamCtx, .ptr .r32, .constPtr .r32, .constPtr .r32, .len_t]⟩,
  ⟨"launch_hadamard_r16", [.StreamCtx, .constPtr .r16, .constPtr .r16, .ptr .r16, .len_t]⟩,
  ⟨"launch_hadamard_c16", [.StreamCtx, .constPtr .c16, .constPtr .c16, .ptr .c16, .len_t]⟩,
  ⟨"launch_hadamard_r32", [.StreamCtx, .constPtr .r32, .constPtr .r32, .ptr .r32, .len_t]⟩,
  ⟨"launch_hadamard_c32", [.StreamCtx, .constPtr .c32, .constPtr .c32, .ptr .c32, .len_t]⟩
]

/-! Special values: IEEE-754 bit patterns -/

/-- A decoded IEEE-754 binary floating-point datum. -/
inductive FloatVal
  | finite (q : ℚ)
  | inf (negative : Bool)
  | nan
deriving DecidableEq

/-- Sign field of a bit pattern in the binary format with `ebits` exponent
bits and `fbits` fraction bits. -/
def signField (ebits fbits bits : Nat) : Nat := bits / 2 ^ (fbits + ebits) % 2

/-- Biased exponent field of a bit pattern. -/
def exponentField (ebits fbits bits : Nat) : Nat := bits / 2 ^ fbits % 2 ^ ebits

/-- Fraction field of a bit pattern. -/
def fractionField (fbits bits : Nat) : Nat := bits % 2 ^ fbits

/-- Exponent bias of the format, `2^(ebits-1) - 1`. -/
def exponentBias (ebits : Nat) : Nat := 2 ^ (ebits - 1) - 1

/-- The value an IEEE-754 binary interchange format gives a bit pattern:
exponent field all ones is an infinity (fraction 0) or a NaN; exponent field 0
is a zero or subnormal, `± fraction * 2^(1 - bias - fbits)`; any other exponent
field `e` is the normal number `± (2^fbits + fraction) * 2^(e - bias - fbits)`. -/
def ieeeDecode (ebits fbits bits : Nat) : FloatVal :=
  let s := signField ebits fbits bits
  let e := exponentField ebits fbits bits
  let f := fractionField fbits bits
  let sgn : ℚ := if s = 1 then -1 else 1
  if e = 2 ^ ebits - 1 then
    if f = 0 then FloatVal.inf (s == 1) else FloatVal.nan
  else if e = 0 then
    FloatVal.finite (sgn * (f : ℚ) * 2 / 2 ^ (exponentBias ebits + fbits))
  else
    FloatVal.finite (sgn * ((2 ^ fbits + f : Nat) : ℚ) * 2 ^ e / 2 ^ (exponentBias ebits + fbits))

/-- Modelled from the spec: the type `r16` is declared outside the two source
files; the specification makes it the half-precision real, IEEE-754 binary16
(1 sign bit, 5 exponent bits, 10 fraction bits). Reading a 16-bit pattern as
`r16`, as the `reinterpret_cast` of `Init<r16>` does. -/
def halfOfBits (bits : Nat) : FloatVal := ieeeDecode 5 10 bits

/-- The constant `inf_result = 31744` of `Init<r16>::infinity()`. -/
def Init_r16.inf_result : Nat := 31744

/-- The constant `eps_result = 1024` of `Init<r16>::epsilon()`. -/
def Init_r16.eps_result : Nat := 1024

/-- The value `Init<r16>::infinity()` returns. -/
def Init_r16.infinity : FloatVal := halfOfBits Init_r16.inf_result

/-- The value `Init<r16>::epsilon()` returns. -/
def Init_r16.epsilon : FloatVal := halfOfBits Init_r16.eps_result

/-- The bit pattern of 1.0 in a binary format: sign 0, exponent field equal to
the bias, fraction 0. -/
def bitsOfOne (ebits fbits : Nat) : Nat := exponentBias ebits * 2 ^ fbits

/-- The finite value of a datum, 0 for infinities and NaN. -/
def FloatVal.toRat : FloatVal → ℚ
  | FloatVal.finite q => q
  | FloatVal.inf _ => 0
  | FloatVal.nan => 0

/-- The quantity `std::numeric_limits<T>::epsilon()` of the C++ standard
library for a binary format: the difference between 1 and the least
representable value greater than 1. -/
def numericLimitsEpsilon (ebits fbits : Nat) : ℚ :=
  (ieeeDecode ebits fbits (bitsOfOne ebits fbits + 1)).toRat -
    (ieeeDecode ebits fbits (bitsOfOne ebits fbits)).toRat

/-- Modelled from the spec: the type `r32` is declared outside the two source
files; the specification makes it the 32-bit real, IEEE-754 binary32 (8 exponent
bits, 23 fraction bits). The value `Init<r32>::epsilon()` returns,
`std::numeric_limits<r32>::epsilon()`. -/
def Init_r32.epsilon : ℚ := numericLimitsEpsilon 8 23

/-- Modelled from the spec: the type `r64` is declared outside the two source
files; the specification makes it the 64-bit real, IEEE-754 binary64 (11
exponent bits, 52 fraction bits). The value `Init<r64>::epsilon()` returns,
`std::numeric_limits<r64>::epsilon()`. -/
def Init_r64.epsilon : ℚ := numericLimitsEpsilon 11 52

/-! Tolerance comparison: binary64 arithmetic -/

/-- The call `std::abs` on the finite double of value `d`. -/
def stdAbs (d : ℚ) : ℚ := if d < 0 then -d else d

/-- Rounding of a rational to the nearest integer, a tie going to the even one. -/
def roundHalfEven (z : ℚ) : ℤ :=
  let f := ⌊z⌋
  let r := z - f
  if r < 1 / 2 then f
  else if 1 / 2 < r then f + 1
  else if f % 2 = 0 then f else f + 1

/-- Exponent of the unit in the last place that binary64 (53 significant bits,
least normal exponent -1022) gives a magnitude `q`: `floor (log2 q) - 52`, and
`-1074` throughout the subnormal range. -/
def doubleQuantum (q : ℚ) : ℤ := max (Int.log 2 q) (-1022) - 52

/-- A magnitude `q ≥ 0` rounded to the nearest multiple of its unit in the last
place, ties to even. -/
def roundMagnitude (q : ℚ) : ℚ :=
  (roundHalfEven (q / 2 ^ doubleQuantum q) : ℚ) * 2 ^ doubleQuantum q

/-- The binary64 value nearest to the rational `q` (round to nearest, ties to
even, the rounding of double arithmetic and of decimal literals): the rounded
magnitude with the sign of `q`, an infinity when the rounded magnitude reaches
`2^1024`. -/
def roundDouble (q : ℚ) : FloatVal :=
  let m := roundMagnitude (stdAbs q)
  if 2 ^ 1024 ≤ m then FloatVal.inf (decide (q < 0))
  else FloatVal.finite (if q < 0 then -m else m)

/-- Subtraction of two finite doubles: the exact difference, rounded. -/
def doubleSub (x y : ℚ) : FloatVal := roundDouble (x - y)

/-- The call `std::abs` on a double. -/
def doubleAbs : FloatVal → FloatVal
  | FloatVal.finite q => FloatVal.finite (stdAbs q)
  | FloatVal.inf _ => FloatVal.inf false
  | FloatVal.nan => FloatVal.nan

/-- The comparison `<` of two doubles; it is false when either is a NaN. -/
def doubleLt : FloatVal → FloatVal → Bool
  | FloatVal.finite a, FloatVal.finite b => decide (a < b)
  | FloatVal.finite _, FloatVal.inf negative => !negative
  | FloatVal.inf negative, FloatVal.finite _ => negative
  | FloatVal.inf a, FloatVal.inf b => a && !b
  | FloatVal.nan, _ => false
  | _, FloatVal.nan => false

/-- The template `epsEql` on finite operands; `widen x` is the value of
`static_cast<double>(x)`, a widening that loses nothing:
`std::abs(static_cast<double>(x) - static_cast<double>(y)) < 0.001`, the
subtraction, `std::abs` and `<` being those of `double` and `0.001` the double
nearest to the decimal literal. -/
def epsEql {T : Type} (widen : T → ℚ) (x y : T) : Bool :=
  doubleLt (doubleAbs (doubleSub (widen x) (widen y))) (roundDouble 0.001)

/-! Host-side status handlers -/

/-- How a call of a status handler ends, with what it printed up to there:
it returns to the caller, it ends the process through `exit(code)`, or it
dereferences a null pointer (undefined behaviour, no defined continuation). -/
inductive Outcome
  | returned (printed : List String)
  | exited (printed : List String) (code : Nat)
  | nullDeref (printed : List String)
deriving DecidableEq

/-- The status `cudaSuccess` of the device runtime (`cuda_runtime.h`). -/
def cudaSuccess : Nat := 0

/-- The status `CUDA_SUCCESS` of the driver (`cuda.h`). -/
def CUDA_SUCCESS : Nat := 0

/-- The exit code `EXIT_FAILURE` of the C library. -/
def EXIT_FAILURE : Nat := 1

/-- The function `HandleError`; `cudaGetErrorString` is the runtime's message
table. What `printf("%s in %s at line %d\n", ...)` prints is kept as the list of
its pieces. -/
def HandleError (cudaGetErrorString : Nat → String) (err : Nat) (file : String)
    (line : Nat) : Outcome :=
  if err ≠ cudaSuccess then
    Outcome.exited [cudaGetErrorString err, " in ", file, " at line ", toString line, "\n"]
      EXIT_FAILURE
  else Outcome.returned []

/-- The driver call `cuGetErrorString(err, pStr)`: it stores the message of
`err` (a null string for an unrecognised status) in the cell `pStr` points to.
A pointer is `none` when null and `some cell` otherwise; through a null `pStr`
there is no cell to store to. -/
def cuGetErrorString (table : Nat → Option String) (err : Nat)
    (pStr : Option (Option String)) : Option (Option String) :=
  match pStr with
  | none => none
  | some _ => some (table err)

/-- The function `handleCUResultError`; `table` is the driver's message table.
The local `const char** msg = nullptr` is passed to `cuGetErrorString` and then
dereferenced by `if (*msg)`. -/
def handleCUResultError (table : Nat → Option String) (err : Nat) (file : String)
    (line : Nat) : Outcome :=
  if err ≠ CUDA_SUCCESS then
    let msg : Option (Option String) := none
    let msg := cuGetErrorString table err msg
    match msg with
    | none => Outcome.nullDeref []
    | some (some m) =>
      Outcome.exited [m, " in ", file, " at line ", toString line, "\n"] EXIT_FAILURE
    | some none =>
      Outcome.exited ["Unkown error in ", file, " at line ", toString line, "\n"] EXIT_FAILURE
  else Outcome.returned []

/-! Signed sums -/

/-- Number of one bits of `n`: the positions `k < n` whose bit is set in `n`
(every set bit of `n` is at a position below `n`). -/
def popcount (n : Nat) : Nat := ((List.range n).filter (fun k => n.testBit k)).length

/-! Warp reduction: lemmas -/

theorem warpReduce_unroll {T : Type} (op : T → T → T) (v : Nat → T) :
    warpReduce op v =
      shflXorApply op 1 (shflXorApply op 2 (shflXorApply op 4
        (shflXorApply op 8 (shflXorApply op 16 v)))) := by
  have e : WARP_SIZE >>> 1 = 16 := by decide
  unfold warpReduce
  rw [e]
  rw [warpReduceLoop, if_pos (by decide), show 16 >>> 1 = 8 by decide]
  rw [warpReduceLoop, if_pos (by decide), show 8 >>> 1 = 4 by decide]
  rw [warpReduceLoop, if_pos (by decide), show 4 >>> 1 = 2 by decide]
  rw [warpReduceLoop, if_pos (by decide), show 2 >>> 1 = 1 by decide]
  rw [warpReduceLoop, if_pos (by decide), show 1 >>> 1 = 0 by decide]
  rw [warpReduceLoop, if_neg (by decide)]

/-- For an associative and commutative operator every lane of the warp ends
with the left fold of the 32 lane values. -/
theorem warpReduce_eq_leftFold {T : Type} (op : T → T → T) (v : Nat → T)
    (hassoc : ∀ a b c, op (op a b) c = op a (op b c))
    (hcomm : ∀ a b, op a b = op b a) (l : Nat) (hl : l < 32) :
    warpReduce op v l = leftFold op v 31 := by
  haveI : Std.Associative op := ⟨hassoc⟩
  haveI : Std.Commutative op := ⟨hcomm⟩
  rw [warpReduce_unroll]
  interval_cases l <;>
    simp only [shflXorApply, leftFold, Nat.reduceXor, Nat.reduceAdd] <;>
    ac_rfl

theorem leftFold_add_eq_sum (c : Nat → Int) (n : Nat) :
    leftFold (fun x y => AddOP.apply x y) c n = ∑ i in Finset.range (n + 1), c i := by
  induction n with
  | zero => simp [leftFold]
  | succ k ih => rw [leftFold, ih, Finset.sum_range_succ _ (k + 1)]; rfl

/-! Block reduction: lemmas -/

theorem mem_blockThreads (N w l : Nat) :
    (w, l) ∈ blockThreads N ↔ w < N ∧ l < WARP_SIZE := by
  simp [blockThreads, List.pair_mem_product]

theorem nodup_blockThreads (N : Nat) : (blockThreads N).Nodup :=
  List.Nodup.product (List.nodup_range N) (List.nodup_range WARP_SIZE)

/-- Running the first phase over any list of threads: slot `s` holds the
reduction of lane 0 of warp `s` if that thread is in the list, and is untouched
otherwise. -/
theorem foldl_storeLeader {T : Type} (rdx : Nat → Nat → T) (ts : List (Nat × Nat))
    (cache : Nat → T) (s : Nat) :
    ts.foldl (fun c t => storeLeader c (rdx t.1 t.2) t.1 t.2) cache s =
      if (s, 0) ∈ ts then rdx s 0 else cache s := by
  induction ts generalizing cache with
  | nil => simp
  | cons t ts ih =>
    rw [List.foldl_cons, ih]
    by_cases hmem : (s, 0) ∈ ts
    · simp [hmem]
    · rw [if_neg hmem]
      obtain ⟨w, l⟩ := t
      by_cases hl : l = 0
      · subst hl
        by_cases hw : w = s
        · subst hw
          simp [storeLeader]
        · have hne : s ≠ w := fun h => hw h.symm
          simp [storeLeader, hmem, hne, hw, Function.update_noteq hne]
      · have hne : ¬ ((s, 0) = (w, l)) := by
          intro h
          exact hl (Prod.mk.inj h).2.symm
        simp [storeLeader, hl, hmem, hne]

/-- Threads other than (warp 0, lane 0) leave the cache alone in the second phase. -/
theorem foldl_foldLeader_of_not_mem {T : Type} (op : T → T → T) (N : Nat)
    (ts : List (Nat × Nat)) (h : (0, 0) ∉ ts) (cache : Nat → T) :
    ts.foldl (fun c t => foldLeader op N c t.1 t.2) cache = cache := by
  induction ts generalizing cache with
  | nil => rfl
  | cons t ts ih =>
    obtain ⟨w, l⟩ := t
    have hne : ¬ (l = 0 ∧ w = 0) := by
      rintro ⟨rfl, rfl⟩
      exact h (List.mem_cons_self _ _)
    rw [List.foldl_cons, ih (fun hm => h (List.mem_cons_of_mem _ hm))]
    simp only [foldLeader, if_neg hne]

theorem foldl_foldLeader {T : Type} (op : T → T → T) (N : Nat)
    (ts : List (Nat × Nat)) (hnd : ts.Nodup) (hmem : (0, 0) ∈ ts) (cache : Nat → T) :
    ts.foldl (fun c t => foldLeader op N c t.1 t.2) cache =
      Function.update cache 0 (foldCache op N cache 1 (cache 0)) := by
  induction ts generalizing cache with
  | nil => simp at hmem
  | cons t ts ih =>
    obtain ⟨w, l⟩ := t
    rw [List.nodup_cons] at hnd
    rw [List.foldl_cons]
    by_cases ht : l = 0 ∧ w = 0
    · obtain ⟨rfl, rfl⟩ := ht
      rw [foldl_foldLeader_of_not_mem op N ts hnd.1]
      simp [foldLeader]
    · have hin : (0, 0) ∈ ts := by
        rcases List.mem_cons.1 hmem with h | h
        · exact absurd ⟨(Prod.mk.inj h).2.symm, (Prod.mk.inj h).1.symm⟩ ht
        · exact h
      simp only [foldLeader, if_neg ht]
      exact ih hnd.2 hin cache

/-- The sequential loop only reads the slots below `N`. -/
theorem foldCache_congr {T : Type} (op : T → T → T) (N : Nat) (c d : Nat → T)
    (h : ∀ s, s < N → c s = d s) (i : Nat) (tmp : T) :
    foldCache op N c i tmp = foldCache op N d i tmp := by
  generalize hk : N - i = k
  induction k generalizing i tmp with
  | zero =>
    conv_lhs => rw [foldCache, if_neg (by omega)]
    conv_rhs => rw [foldCache, if_neg (by omega)]
  | succ k ih =>
    conv_lhs => rw [foldCache, if_pos (by omega), h i (by omega)]
    conv_rhs => rw [foldCache, if_pos (by omega)]
    exact ih (i + 1) _ (by omega)

/-- Entered at counter `i + 1` with the fold of slots `0..i`, the loop ends with
the fold of slots `0..N-1`. -/
theorem foldCache_eq_leftFold {T : Type} (op : T → T → T) (N : Nat) (c : Nat → T)
    (i : Nat) (hi : i + 1 ≤ N) :
    foldCache op N c (i + 1) (leftFold op c i) = leftFold op c (N - 1) := by
  generalize hk : N - (i + 1) = k
  induction k generalizing i with
  | zero =>
    have e : N - 1 = i := by omega
    rw [foldCache, if_neg (by omega), e]
  | succ k ih =>
    rw [foldCache, if_pos (by omega)]
    exact ih (i + 1) (by omega) (by omega)

/-- Whatever order the threads of the block run in inside each of the two
phases, slot 0 of the cache ends with the left fold of the leaders' results. -/
theorem phases_eq_leftFold {T : Type} (op : T → T → T) (N : Nat) (hN : 1 ≤ N)
    (value : Nat → Nat → T) (cache : Nat → T) (ts1 ts2 : List (Nat × Nat))
    (h1 : ts1.Perm (blockThreads N)) (h2 : ts2.Perm (blockThreads N)) :
    ts2.foldl (fun c t => foldLeader op N c t.1 t.2)
        (ts1.foldl (fun c t => storeLeader c (warpReduce op (value t.1) t.2) t.1 t.2) cache) 0 =
      leftFold op (fun s => warpReduce op (value s) 0) (N - 1) := by
  have hslot : ∀ s, s < N →
      ts1.foldl (fun c t => storeLeader c (warpReduce op (value t.1) t.2) t.1 t.2) cache s =
        warpReduce op (value s) 0 := by
    intro s hs
    rw [foldl_storeLeader (fun a b => warpReduce op (value a) b)]
    rw [if_pos (h1.mem_iff.2 ((mem_blockThreads N s 0).2 ⟨hs, by decide⟩))]
  rw [foldl_foldLeader op N ts2 (h2.nodup_iff.2 (nodup_blockThreads N))
    (h2.mem_iff.2 ((mem_blockThreads N 0 0).2 ⟨by omega, by decide⟩))]
  rw [Function.update_same]
  rw [foldCache_congr op N _ (fun s => warpReduce op (value s) 0) hslot]
  rw [hslot 0 (by omega)]
  exact foldCache_eq_leftFold op N (fun s => warpReduce op (value s) 0) 0 hN

/-- What every thread of the block gets back from `blockReduce`. -/
theorem blockReduce_eq_leftFold {T : Type} (op : T → T → T) (N : Nat) (hN : 1 ≤ N)
    (value : Nat → Nat → T) (cache : Nat → T) (w l : Nat) :
    blockReduce op N value cache w l =
      leftFold op (fun s => warpReduce op (value s) 0) (N - 1) :=
  phases_eq_leftFold op N hN value cache (blockThreads N) (blockThreads N)
    (List.Perm.refl _) (List.Perm.refl _)

/-- The value of `blockReduce` does not depend on the order in which the
threads run between the barriers. -/
theorem blockReduce_schedule_irrelevant {T : Type} (op : T → T → T) (N : Nat) (hN : 1 ≤ N)
    (value : Nat → Nat → T) (cache : Nat → T) (ts1 ts2 : List (Nat × Nat))
    (h1 : ts1.Perm (blockThreads N)) (h2 : ts2.Perm (blockThreads N)) (w l : Nat) :
    ts2.foldl (fun c t => foldLeader op N c t.1 t.2)
        (ts1.foldl (fun c t => storeLeader c (warpReduce op (value t.1) t.2) t.1 t.2) cache) 0 =
      blockReduce op N value cache w l := by
  rw [blockReduce_eq_leftFold op N hN, phases_eq_leftFold op N hN value cache ts1 ts2 h1 h2]

/-! Grid sizing: lemmas -/

theorem natCeil_div32 (N : Nat) :
    ⌈(N : ℚ) / 32⌉₊ = N / 32 + (if 32 ∣ N then 0 else 1) := by
  have h32 : (0 : ℚ) < 32 := by norm_num
  apply le_antisymm
  · rw [Nat.ceil_le, div_le_iff₀ h32]
    have hnat : N ≤ (N / 32 + (if 32 ∣ N then 0 else 1)) * 32 := by
      split_ifs with hd <;> omega
    exact_mod_cast hnat
  · by_contra hlt
    have hlt2 : ⌈(N : ℚ) / 32⌉₊ < N / 32 + (if 32 ∣ N then 0 else 1) := not_le.1 hlt
    have hle : (N : ℚ) / 32 ≤ (⌈(N : ℚ) / 32⌉₊ : ℚ) := Nat.le_ceil _
    rw [div_le_iff₀ h32] at hle
    have hnat : N ≤ ⌈(N : ℚ) / 32⌉₊ * 32 := by exact_mod_cast hle
    split_ifs at hlt2 with hd <;> omega

/-! Tolerance comparison: lemmas -/

theorem stdAbs_eq_abs (d : ℚ) : stdAbs d = |d| := by
  unfold stdAbs
  split_ifs with h
  · exact (abs_of_neg h).symm
  · exact (abs_of_nonneg (not_lt.1 h)).symm

theorem roundHalfEven_cases (z : ℚ) :
    roundHalfEven z = ⌊z⌋ ∨ (roundHalfEven z = ⌊z⌋ + 1 ∧ (⌊z⌋ : ℚ) + 1 / 2 ≤ z) := by
  unfold roundHalfEven
  simp only
  split_ifs with h1 h2 h3
  · exact Or.inl rfl
  · exact Or.inr ⟨rfl, by linarith⟩
  · exact Or.inl rfl
  · exact Or.inr ⟨rfl, by linarith⟩

theorem floor_le_roundHalfEven (z : ℚ) : ⌊z⌋ ≤ roundHalfEven z := by
  rcases roundHalfEven_cases z with h | ⟨h, _⟩ <;> omega

theorem le_roundHalfEven_of_le (z : ℚ) (N : ℤ) (h : (N : ℚ) ≤ z) : N ≤ roundHalfEven z :=
  le_trans (Int.le_floor.2 h) (floor_le_roundHalfEven z)

theorem roundHalfEven_le_of_le (z : ℚ) (N : ℤ) (h : z ≤ (N : ℚ)) : roundHalfEven z ≤ N := by
  have hf : (⌊z⌋ : ℚ) ≤ z := Int.floor_le z
  rcases roundHalfEven_cases z with h1 | ⟨h1, h2⟩
  · rw [h1]
    have : (⌊z⌋ : ℚ) ≤ N := le_trans hf h
    exact_mod_cast this
  · rw [h1]
    have : (⌊z⌋ : ℚ) < N := by linarith
    have h3 : ⌊z⌋ < N := by exact_mod_cast this
    omega

theorem roundHalfEven_lt_even_iff (z : ℚ) (M : ℤ) (hM : M % 2 = 0) :
    roundHalfEven z < M ↔ z < (M : ℚ) - 1 / 2 := by
  have hf : (⌊z⌋ : ℚ) ≤ z := Int.floor_le z
  have hf2 : z < (⌊z⌋ : ℚ) + 1 := Int.lt_floor_add_one z
  constructor
  · intro h
    by_contra hz
    have hz2 : (M : ℚ) - 1 / 2 ≤ z := not_lt.1 hz
    have hfl : M - 1 ≤ ⌊z⌋ := by
      apply Int.le_floor.2
      push_cast
      linarith
    have hge := floor_le_roundHalfEven z
    have hfeq : ⌊z⌋ = M - 1 := by omega
    have hr : roundHalfEven z = M := by
      unfold roundHalfEven
      simp only
      rw [hfeq]
      have e1 : ((M - 1 : ℤ) : ℚ) = (M : ℚ) - 1 := by push_cast; ring
      rw [e1]
      split_ifs with h1 h2 h3
      · linarith
      · ring
      · omega
      · ring
    omega
  · intro h
    have hfl : (⌊z⌋ : ℚ) < M := by linarith
    have hfl2 : ⌊z⌋ < M := by exact_mod_cast hfl
    rcases roundHalfEven_cases z with h1 | ⟨h1, h2⟩
    · omega
    · rw [h1]
      have h3 : (⌊z⌋ : ℚ) + 1 < M := by linarith
      have h4 : ⌊z⌋ + 1 < M := by exact_mod_cast h3
      exact h4

theorem roundHalfEven_nonneg (z : ℚ) (h : 0 ≤ z) : 0 ≤ roundHalfEven z :=
  le_roundHalfEven_of_le z 0 (by simpa using h)

theorem int_log_two_eq (d : ℚ) (k : ℤ) (h1 : (2 : ℚ) ^ k ≤ d) (h2 : d < (2 : ℚ) ^ (k + 1)) :
    Int.log 2 d = k := by
  have hd : 0 < d := lt_of_lt_of_le (zpow_pos (by norm_num) k) h1
  have hb : 1 < (2 : ℕ) := by decide
  have hc : ((2 : ℕ) : ℚ) = 2 := by norm_num
  have hlo : k ≤ Int.log 2 d := (Int.zpow_le_iff_le_log hb hd).1 (by rw [hc]; exact h1)
  have hhi : Int.log 2 d < k + 1 := (Int.lt_zpow_iff_log_lt hb hd).1 (by rw [hc]; exact h2)
  omega

theorem int_log_two_lt (d : ℚ) (k : ℤ) (hd : 0 < d) (h2 : d < (2 : ℚ) ^ k) :
    Int.log 2 d < k := by
  have hb : 1 < (2 : ℕ) := by decide
  have hc : ((2 : ℕ) : ℚ) = 2 := by norm_num
  exact (Int.lt_zpow_iff_log_lt hb hd).1 (by rw [hc]; exact h2)

theorem int_log_two_le (d : ℚ) (k : ℤ) (hd : 0 < d) (h1 : (2 : ℚ) ^ k ≤ d) :
    k ≤ Int.log 2 d := by
  have hb : 1 < (2 : ℕ) := by decide
  have hc : ((2 : ℕ) : ℚ) = 2 := by norm_num
  exact (Int.zpow_le_iff_le_log hb hd).1 (by rw [hc]; exact h1)

theorem two_zpow_log_le (d : ℚ) (hd : 0 < d) : (2 : ℚ) ^ Int.log 2 d ≤ d := by
  have hb : 1 < (2 : ℕ) := by decide
  have h := Int.zpow_log_le_self hb hd
  simpa using h

/-- A nonnegative power of two is an integer. -/
theorem two_zpow_eq_intCast (k : ℤ) (hk : 0 ≤ k) : (2 : ℚ) ^ k = ((2 ^ k.toNat : ℤ) : ℚ) := by
  obtain ⟨n, rfl⟩ := Int.eq_ofNat_of_zero_le hk
  simp

/-- Below `2^-10` the rounded magnitude stays at or below `2^-10`. -/
theorem roundMagnitude_le_of_lt (d : ℚ) (hd : 0 ≤ d) (h : d < (2 : ℚ) ^ (-10 : ℤ)) :
    roundMagnitude d ≤ (2 : ℚ) ^ (-10 : ℤ) := by
  have he : doubleQuantum d ≤ -10 := by
    unfold doubleQuantum
    rcases eq_or_lt_of_le hd with h0 | hpos
    · rw [← h0, Int.log_zero_right]
      decide
    · have hl := int_log_two_lt d (-10) hpos h
      have hm : max (Int.log 2 d) (-1022) ≤ -11 := max_le (by omega) (by decide)
      omega
  have h2pos : (0 : ℚ) < 2 ^ doubleQuantum d := zpow_pos (by norm_num) _
  have h2ne : (2 : ℚ) ≠ 0 := by norm_num
  have hz : d / 2 ^ doubleQuantum d ≤ ((2 ^ (-10 - doubleQuantum d).toNat : ℤ) : ℚ) := by
    rw [← two_zpow_eq_intCast _ (by omega), zpow_sub₀ h2ne]
    exact div_le_div_of_nonneg_right (le_of_lt h) (le_of_lt h2pos)
  have hr := roundHalfEven_le_of_le _ _ hz
  have hr2 : (roundHalfEven (d / 2 ^ doubleQuantum d) : ℚ) ≤
      ((2 ^ (-10 - doubleQuantum d).toNat : ℤ) : ℚ) := by exact_mod_cast hr
  unfold roundMagnitude
  calc (roundHalfEven (d / 2 ^ doubleQuantum d) : ℚ) * 2 ^ doubleQuantum d
      ≤ ((2 ^ (-10 - doubleQuantum d).toNat : ℤ) : ℚ) * 2 ^ doubleQuantum d :=
        mul_le_mul_of_nonneg_right hr2 (le_of_lt h2pos)
    _ = (2 : ℚ) ^ (-10 : ℤ) := by
        rw [← two_zpow_eq_intCast _ (by omega), ← zpow_add₀ h2ne]
        congr 1
        omega

/-- From `2^-9` on the rounded magnitude stays at or above `2^-9`. -/
theorem le_roundMagnitude_of_le (d : ℚ) (h : (2 : ℚ) ^ (-9 : ℤ) ≤ d) :
    (2 : ℚ) ^ (-9 : ℤ) ≤ roundMagnitude d := by
  have hpos : 0 < d := lt_of_lt_of_le (zpow_pos (by norm_num) _) h
  have hl : -9 ≤ Int.log 2 d := int_log_two_le d (-9) hpos h
  have he : doubleQuantum d = Int.log 2 d - 52 := by
    unfold doubleQuantum
    rw [max_eq_left (by omega)]
  have h2pos : (0 : ℚ) < 2 ^ doubleQuantum d := zpow_pos (by norm_num) _
  have h2ne : (2 : ℚ) ≠ 0 := by norm_num
  have hz : ((2 ^ 52 : ℤ) : ℚ) ≤ d / 2 ^ doubleQuantum d := by
    rw [le_div_iff₀ h2pos]
    have e1 : ((2 ^ 52 : ℤ) : ℚ) = (2 : ℚ) ^ (52 : ℤ) := by norm_num
    rw [e1, ← zpow_add₀ h2ne, he]
    have e2 : (52 : ℤ) + (Int.log 2 d - 52) = Int.log 2 d := by omega
    rw [e2]
    exact two_zpow_log_le d hpos
  have hr := le_roundHalfEven_of_le _ _ hz
  have hr2 : ((2 ^ 52 : ℤ) : ℚ) ≤ (roundHalfEven (d / 2 ^ doubleQuantum d) : ℚ) := by
    exact_mod_cast hr
  unfold roundMagnitude
  calc (2 : ℚ) ^ (-9 : ℤ) ≤ (2 : ℚ) ^ Int.log 2 d := zpow_le_zpow_right₀ (by norm_num) hl
    _ = ((2 ^ 52 : ℤ) : ℚ) * 2 ^ doubleQuantum d := by
        have e1 : ((2 ^ 52 : ℤ) : ℚ) = (2 : ℚ) ^ (52 : ℤ) := by norm_num
        rw [e1, ← zpow_add₀ h2ne, he]
        congr 1
        omega
    _ ≤ (roundHalfEven (d / 2 ^ doubleQuantum d) : ℚ) * 2 ^ doubleQuantum d :=
        mul_le_mul_of_nonneg_right hr2 (le_of_lt h2pos)

/-- In the binade of 0.001 the unit in the last place is `2^-62`. -/
theorem roundMagnitude_binade (d : ℚ) (h1 : (2 : ℚ) ^ (-10 : ℤ) ≤ d)
    (h2 : d < (2 : ℚ) ^ (-9 : ℤ)) :
    roundMagnitude d = (roundHalfEven (d * 2 ^ 62) : ℚ) / 2 ^ 62 := by
  have hl : Int.log 2 d = -10 := int_log_two_eq d (-10) h1 (by simpa using h2)
  have he : doubleQuantum d = -62 := by
    unfold doubleQuantum
    rw [hl]
    decide
  unfold roundMagnitude
  rw [he]
  have e : (2 : ℚ) ^ (-62 : ℤ) = 1 / 2 ^ 62 := by norm_num
  rw [e]
  have e2 : d / (1 / 2 ^ 62) = d * 2 ^ 62 := by field_simp
  rw [e2]
  ring

/-- The rounded magnitude is below the double literal `0.001`
(`1152921504606847 / 2^60`) exactly when the magnitude is below the midpoint
between that double and the one before it. -/
theorem roundMagnitude_lt_literal_iff (d : ℚ) (hd : 0 ≤ d) :
    roundMagnitude d < 1152921504606847 / 2 ^ 60 ↔ d < 9223372036854775 / 2 ^ 63 := by
  by_cases hlo : d < (2 : ℚ) ^ (-10 : ℤ)
  · have h := roundMagnitude_le_of_lt d hd hlo
    have e : (2 : ℚ) ^ (-10 : ℤ) = 1 / 1024 := by norm_num
    rw [e] at h hlo
    constructor
    · intro _
      have : (1 : ℚ) / 1024 < 9223372036854775 / 2 ^ 63 := by norm_num
      linarith
    · intro _
      have : (1 : ℚ) / 1024 < 1152921504606847 / 2 ^ 60 := by norm_num
      linarith
  · have hlo2 : (2 : ℚ) ^ (-10 : ℤ) ≤ d := not_lt.1 hlo
    by_cases hhi : d < (2 : ℚ) ^ (-9 : ℤ)
    · rw [roundMagnitude_binade d hlo2 hhi]
      have hM : (4611686018427388 : ℤ) % 2 = 0 := by decide
      have key := roundHalfEven_lt_even_iff (d * 2 ^ 62) 4611686018427388 hM
      have ht : (1152921504606847 : ℚ) / 2 ^ 60 * 2 ^ 62 = 4611686018427388 := by norm_num
      constructor
      · intro h
        have h3 : (roundHalfEven (d * 2 ^ 62) : ℚ) < ((4611686018427388 : ℤ) : ℚ) := by
          rw [div_lt_iff₀ (by positivity), ht] at h
          push_cast
          exact h
        have h4 : roundHalfEven (d * 2 ^ 62) < 4611686018427388 := by exact_mod_cast h3
        have h5 := key.1 h4
        push_cast at h5
        rw [lt_div_iff₀ (by positivity)]
        linarith
      · intro h
        have h5 : d * 2 ^ 62 < ((4611686018427388 : ℤ) : ℚ) - 1 / 2 := by
          rw [lt_div_iff₀ (by positivity)] at h
          push_cast
          linarith
        have h4 := key.2 h5
        have h3 : (roundHalfEven (d * 2 ^ 62) : ℚ) < ((4611686018427388 : ℤ) : ℚ) := by
          exact_mod_cast h4
        rw [div_lt_iff₀ (by positivity), ht]
        push_cast at h3
        exact h3
    · have hhi2 : (2 : ℚ) ^ (-9 : ℤ) ≤ d := not_lt.1 hhi
      have h := le_roundMagnitude_of_le d hhi2
      have e : (2 : ℚ) ^ (-9 : ℤ) = 1 / 512 := by norm_num
      rw [e] at h hhi2
      constructor
      · intro h1
        have : (1152921504606847 : ℚ) / 2 ^ 60 < 1 / 512 := by norm_num
        linarith
      · intro h1
        have : (9223372036854775 : ℚ) / 2 ^ 63 < 1 / 512 := by norm_num
        linarith

theorem roundHalfEven_eq_of_near (z : ℚ) (N : ℤ) (h1 : (N : ℚ) - 1 / 2 < z)
    (h2 : z < (N : ℚ) + 1 / 2) : roundHalfEven z = N := by
  have hf : (⌊z⌋ : ℚ) ≤ z := Int.floor_le z
  have hf2 : z < (⌊z⌋ : ℚ) + 1 := Int.lt_floor_add_one z
  by_cases hz : (N : ℚ) ≤ z
  · have hfl : ⌊z⌋ = N := by
      rw [Int.floor_eq_iff]
      exact ⟨hz, by linarith⟩
    unfold roundHalfEven
    simp only
    rw [hfl, if_pos (by linarith)]
  · have hz2 : z < (N : ℚ) := not_le.1 hz
    have hfl : ⌊z⌋ = N - 1 := by
      rw [Int.floor_eq_iff]
      push_cast
      exact ⟨by linarith, by linarith⟩
    unfold roundHalfEven
    simp only
    rw [hfl]
    have e1 : ((N - 1 : ℤ) : ℚ) = (N : ℚ) - 1 := by push_cast; ring
    rw [e1, if_neg (by linarith), if_pos (by linarith)]
    ring

theorem roundMagnitude_nonneg (d : ℚ) (hd : 0 ≤ d) : 0 ≤ roundMagnitude d := by
  have h2pos : (0 : ℚ) < 2 ^ doubleQuantum d := zpow_pos (by norm_num) _
  have hz : 0 ≤ roundHalfEven (d / 2 ^ doubleQuantum d) :=
    roundHalfEven_nonneg _ (div_nonneg hd (le_of_lt h2pos))
  have hz2 : (0 : ℚ) ≤ (roundHalfEven (d / 2 ^ doubleQuantum d) : ℚ) := by exact_mod_cast hz
  exact mul_nonneg hz2 (le_of_lt h2pos)

/-- The decimal literal `0.001` denotes the double `1152921504606847 / 2^60`. -/
theorem roundDouble_literal :
    roundDouble 0.001 = FloatVal.finite (1152921504606847 / 2 ^ 60) := by
  have habs : stdAbs (0.001 : ℚ) = 1 / 1000 := by rw [stdAbs_eq_abs]; norm_num [abs_of_pos]
  have hm : roundMagnitude (1 / 1000) = 1152921504606847 / 2 ^ 60 := by
    rw [roundMagnitude_binade _ (by norm_num) (by norm_num),
      roundHalfEven_eq_of_near _ 4611686018427388 (by norm_num) (by norm_num)]
    norm_num
  unfold roundDouble
  simp only [habs, hm]
  rw [if_neg (by norm_num), if_neg (by norm_num)]

theorem stdAbs_signed (c : Prop) [Decidable c] (m : ℚ) (hm : 0 ≤ m) :
    stdAbs (if c then -m else m) = m := by
  rw [stdAbs_eq_abs]
  split_ifs
  · rw [abs_neg, abs_of_nonneg hm]
  · exact abs_of_nonneg hm

/-- What `epsEql` decides, in exact terms. -/
theorem epsEql_true_iff {T : Type} (widen : T → ℚ) (x y : T) :
    epsEql widen x y = true ↔ |widen x - widen y| < 9223372036854775 / 2 ^ 63 := by
  have hnn : 0 ≤ roundMagnitude |widen x - widen y| := roundMagnitude_nonneg _ (abs_nonneg _)
  have key := roundMagnitude_lt_literal_iff |widen x - widen y| (abs_nonneg _)
  unfold epsEql doubleSub
  rw [roundDouble_literal]
  unfold roundDouble
  simp only [stdAbs_eq_abs]
  by_cases hov : (2 : ℚ) ^ 1024 ≤ roundMagnitude |widen x - widen y|
  · rw [if_pos hov]
    simp only [doubleAbs, doubleLt]
    constructor
    · intro h
      exact absurd h (by decide)
    · intro h
      have h2 := key.2 h
      have h3 : (1152921504606847 : ℚ) / 2 ^ 60 < 2 ^ 1024 := by norm_num
      linarith
  · rw [if_neg hov]
    simp only [doubleAbs, doubleLt, stdAbs_signed _ _ hnn, decide_eq_true_eq]
    exact key

theorem epsEql_false_iff {T : Type} (widen : T → ℚ) (x y : T) :
    epsEql widen x y = false ↔ 9223372036854775 / 2 ^ 63 ≤ |widen x - widen y| := by
  rw [← not_lt, ← epsEql_true_iff widen x y, Bool.not_eq_true]

/-- A magnitude in the binade of 0.001 that is a multiple of `2^-62` is a double. -/
theorem roundDouble_of_multiple (k : ℤ) (h1 : 2 ^ 52 ≤ k) (h2 : k < 2 ^ 53) :
    roundDouble ((k : ℚ) / 2 ^ 62) = FloatVal.finite ((k : ℚ) / 2 ^ 62) := by
  have hk1 : ((2 ^ 52 : ℤ) : ℚ) ≤ (k : ℚ) := by exact_mod_cast h1
  have hk2 : (k : ℚ) < ((2 ^ 53 : ℤ) : ℚ) := by exact_mod_cast h2
  push_cast at hk1 hk2
  have hpos : (0 : ℚ) < (k : ℚ) / 2 ^ 62 := by
    apply div_pos _ (by positivity)
    linarith [show (0 : ℚ) < 2 ^ 52 by positivity]
  have hm : roundMagnitude ((k : ℚ) / 2 ^ 62) = (k : ℚ) / 2 ^ 62 := by
    rw [roundMagnitude_binade]
    · have e : (k : ℚ) / 2 ^ 62 * 2 ^ 62 = (k : ℚ) := by field_simp
      rw [e, roundHalfEven_eq_of_near (k : ℚ) k (by linarith) (by linarith)]
    · rw [le_div_iff₀ (by positivity)]
      have e : (2 : ℚ) ^ (-10 : ℤ) * 2 ^ 62 = 2 ^ 52 := by norm_num
      rw [e]
      exact hk1
    · rw [div_lt_iff₀ (by positivity)]
      have e : (2 : ℚ) ^ (-9 : ℤ) * 2 ^ 62 = 2 ^ 53 := by norm_num
      rw [e]
      exact hk2
  unfold roundDouble
  simp only [stdAbs_eq_abs, abs_of_pos hpos, hm]
  have hlt : (k : ℚ) / 2 ^ 62 < 2 ^ 1024 := by
    rw [div_lt_iff₀ (by positivity)]
    have : (2 : ℚ) ^ 53 ≤ 2 ^ 1024 * 2 ^ 62 := by norm_num
    linarith
  rw [if_neg (not_le.2 hlt), if_neg (not_lt.2 (le_of_lt hpos))]

theorem roundDouble_two_pow_neg_65 :
    roundDouble (1 / 2 ^ 65) = FloatVal.finite (1 / 2 ^ 65) := by
  have hl : Int.log 2 ((1 : ℚ) / 2 ^ 65) = -65 :=
    int_log_two_eq _ (-65) (by norm_num) (by norm_num)
  have he : doubleQuantum ((1 : ℚ) / 2 ^ 65) = -117 := by
    unfold doubleQuantum
    rw [hl]
    decide
  have hz : (1 : ℚ) / 2 ^ 65 / 2 ^ (-117 : ℤ) = ((4503599627370496 : ℤ) : ℚ) := by norm_num
  have hm : roundMagnitude ((1 : ℚ) / 2 ^ 65) = 1 / 2 ^ 65 := by
    unfold roundMagnitude
    rw [he, hz, roundHalfEven_eq_of_near _ 4503599627370496 (by norm_num) (by norm_num)]
    norm_num
  unfold roundDouble
  simp only [stdAbs_eq_abs, abs_of_pos (show (0 : ℚ) < 1 / 2 ^ 65 by positivity), hm]
  rw [if_neg (by norm_num), if_neg (by norm_num)]

/-! Checked claims -/

/-- C1: for an associative and commutative operator, every lane of a 32-lane
warp returns from `warpReduce` the same value, the fold of the 32 lane inputs
`v 0, ..., v 31`. -/
theorem warpReduce_all_lanes_fold {T : Type} (op : T → T → T) (v : Nat → T)
    (hassoc : ∀ a b c, op (op a b) c = op a (op b c))
    (hcomm : ∀ a b, op a b = op b a) (l : Nat) (hl : l < 32) :
    warpReduce op v l = leftFold op v 31 :=
  warpReduce_eq_leftFold op v hassoc hcomm l hl

/-- Lane 5 of a warp holding `0, 1, ..., 31` gets the sum 496. -/
theorem warpReduce_all_lanes_fold_witness :
    warpReduce (fun a b : Int => a + b) (fun j => (j : Int)) 5 = 496 :=
  (warpReduce_all_lanes_fold (fun a b : Int => a + b) (fun j => (j : Int))
    (fun a b c => Int.add_assoc a b c) (fun a b => Int.add_comm a b) 5 (by decide)).trans
    (by decide)

/-- C2: with the additive operator on integers, every thread of a block of
`N ≥ 1` full warps returns from `blockReduce` the exact sum of all `32 * N`
thread inputs, whatever the shared cache held on entry. -/
theorem blockReduce_add_exact_sum (N : Nat) (hN : 1 ≤ N) (v : Nat → Nat → Int)
    (cache : Nat → Int) (w l : Nat) (hw : w < N) (hl : l < 32) :
    blockReduce (fun x y => AddOP.apply x y) N v cache w l =
      ∑ a in Finset.range N, ∑ b in Finset.range 32, v a b := by
  have hwarp : (fun s => warpReduce (fun x y : Int => AddOP.apply x y) (v s) 0) =
      fun s => ∑ b in Finset.range 32, v s b := by
    funext s
    rw [warpReduce_eq_leftFold (fun x y : Int => AddOP.apply x y) (v s)
      (fun a b c => Int.add_assoc a b c) (fun a b => Int.add_comm a b) 0 (by decide)]
    exact leftFold_add_eq_sum (v s) 31
  rw [blockReduce_eq_leftFold _ N hN, hwarp, leftFold_add_eq_sum]
  have e : N - 1 + 1 = N := by omega
  rw [e]

/-- Two warps holding `0, ..., 63`: thread (1, 3) gets 2016. -/
theorem blockReduce_add_exact_sum_witness :
    blockReduce (fun x y => AddOP.apply x y) 2 (fun a b => (a * 32 + b : Int))
      (fun _ => 7) 1 3 = 2016 :=
  (blockReduce_add_exact_sum 2 (by decide) (fun a b => (a * 32 + b : Int)) (fun _ => 7) 1 3
    (by decide) (by decide)).trans (by decide)

/-- C3: at `x = (1, 0)`, `y = (0, 1)` the code of `cdiv` returns `(1, 0)`,
dividing `x` by `conjmul y = 1` only, while the quotient `x * conj(y) / |y|^2`
is `(0, -1)`. -/
theorem cdiv_at_one_over_i :
    cdiv (⟨1, 0⟩ : CScalar ℚ) ⟨0, 1⟩ = ⟨1, 0⟩ ∧
      cdivSpec (⟨1, 0⟩ : CScalar ℚ) ⟨0, 1⟩ = ⟨0, -1⟩ ∧
      cdiv (⟨1, 0⟩ : CScalar ℚ) ⟨0, 1⟩ ≠ cdivSpec ⟨1, 0⟩ ⟨0, 1⟩ := by
  refine ⟨?_, ?_, ?_⟩
  · simp [cdiv, conjmul]
  · simp [cdivSpec, conjmul]
  · simp [cdiv, cdivSpec, conjmul]

/-- C4: `cmul x y` is the pair `(x.r*y.r - x.i*y.i, x.r*y.i + x.i*y.r)`; read in
the complex numbers it is the product of `x` and `y`; and it is not the
componentwise product `(x.r*y.r, x.i*y.i)`. -/
theorem cmul_is_complex_product :
    (∀ (R : Type) [CommRing R] (x y : CScalar R),
      cmul x y = ⟨x.r * y.r - x.i * y.i, x.r * y.i + x.i * y.r⟩) ∧
    (∀ x y : CScalar ℝ,
      (⟨(cmul x y).r, (cmul x y).i⟩ : ℂ) = (⟨x.r, x.i⟩ : ℂ) * ⟨y.r, y.i⟩) ∧
    (∃ x y : CScalar ℚ, cmul x y ≠ ⟨x.r * y.r, x.i * y.i⟩) := by
  refine ⟨fun R _ x y => rfl, fun x y => ?_, ⟨⟨0, 1⟩, ⟨0, 1⟩, ?_⟩⟩
  · apply Complex.ext <;> simp [cmul]
  · simp [cmul]

/-- C5, as the claim states it, fails at the doubles `x = 1152921504606847 / 2^60`
(the value of the literal `0.001`) and `y = 2^-65`: `|x - y| < 0.001`, yet the
difference rounds back to `x`, which is not below the literal, and `epsEql` is
false. -/
theorem epsEql_false_below_tolerance :
    roundDouble (1152921504606847 / 2 ^ 60) = FloatVal.finite (1152921504606847 / 2 ^ 60) ∧
    roundDouble (1 / 2 ^ 65) = FloatVal.finite (1 / 2 ^ 65) ∧
    doubleSub (1152921504606847 / 2 ^ 60) (1 / 2 ^ 65) =
      FloatVal.finite (1152921504606847 / 2 ^ 60) ∧
    |(1152921504606847 / 2 ^ 60 : ℚ) - 1 / 2 ^ 65| < 1 / 1000 ∧
    epsEql id (1152921504606847 / 2 ^ 60 : ℚ) (1 / 2 ^ 65) = false ∧
    ¬ (∀ x y : ℚ, epsEql id x y = true ↔ |x - y| < 1 / 1000) := by
  have hx : roundDouble (1152921504606847 / 2 ^ 60) =
      FloatVal.finite (1152921504606847 / 2 ^ 60) := by
    have h := roundDouble_of_multiple 4611686018427388 (by norm_num) (by norm_num)
    have e : ((4611686018427388 : ℤ) : ℚ) / 2 ^ 62 = 1152921504606847 / 2 ^ 60 := by norm_num
    rw [e] at h
    exact h
  have hsub : doubleSub (1152921504606847 / 2 ^ 60) (1 / 2 ^ 65) =
      FloatVal.finite (1152921504606847 / 2 ^ 60) := by
    have hpos : (0 : ℚ) < 1152921504606847 / 2 ^ 60 - 1 / 2 ^ 65 := by norm_num
    have hm : roundMagnitude (1152921504606847 / 2 ^ 60 - 1 / 2 ^ 65) =
        1152921504606847 / 2 ^ 60 := by
      rw [roundMagnitude_binade _ (by norm_num) (by norm_num),
        roundHalfEven_eq_of_near _ 4611686018427388 (by norm_num) (by norm_num)]
      norm_num
    unfold doubleSub roundDouble
    simp only [stdAbs_eq_abs, abs_of_pos hpos, hm]
    rw [if_neg (by norm_num), if_neg (by norm_num)]
  have hlt : |(1152921504606847 / 2 ^ 60 : ℚ) - 1 / 2 ^ 65| < 1 / 1000 := by
    rw [abs_lt]
    constructor <;> norm_num
  have hfalse : epsEql id (1152921504606847 / 2 ^ 60 : ℚ) (1 / 2 ^ 65) = false := by
    rw [epsEql_false_iff]
    simp only [id]
    rw [le_abs]
    left
    norm_num
  refine ⟨hx, roundDouble_two_pow_neg_65, hsub, hlt, hfalse, fun h => ?_⟩
  have h2 := (h (1152921504606847 / 2 ^ 60) (1 / 2 ^ 65)).2 hlt
  rw [hfalse] at h2
  exact Bool.false_ne_true h2

/-- C5, amended: `epsEql x y` compares the magnitude of the double-rounded
difference with the double literal `0.001`, which is `1152921504606847 / 2^60`;
it is true exactly when `|x - y| < 9223372036854775 / 2^63`, the midpoint between
that double and the one before it, which lies below `0.001`; so it is false
when `|x - y|` is `0.001` or more; and when the difference is itself a double,
it is true exactly when `|x - y| < 0.001`. -/
theorem epsEql_iff_abs_lt_midpoint {T : Type} (widen : T → ℚ) (x y : T) :
    epsEql widen x y =
        doubleLt (doubleAbs (doubleSub (widen x) (widen y)))
          (FloatVal.finite (1152921504606847 / 2 ^ 60)) ∧
    (epsEql widen x y = true ↔ |widen x - widen y| < 9223372036854775 / 2 ^ 63) ∧
    (epsEql widen x y = false ↔ 9223372036854775 / 2 ^ 63 ≤ |widen x - widen y|) ∧
    ((9223372036854775 : ℚ) / 2 ^ 63 < 1 / 1000 ∧
      (1 / 1000 ≤ |widen x - widen y| → epsEql widen x y = false)) ∧
    (doubleSub (widen x) (widen y) = FloatVal.finite (widen x - widen y) →
      (epsEql widen x y = true ↔ |widen x - widen y| < 1 / 1000)) := by
  have hθ : (9223372036854775 : ℚ) / 2 ^ 63 < 1 / 1000 := by norm_num
  refine ⟨?_, epsEql_true_iff widen x y, epsEql_false_iff widen x y, ⟨hθ, fun h => ?_⟩,
    fun hrep => ?_⟩
  · unfold epsEql
    rw [roundDouble_literal]
  · rw [epsEql_false_iff]
    linarith
  · rw [epsEql_true_iff]
    constructor
    · intro h
      linarith
    · intro h
      have hnn : 0 ≤ roundMagnitude |widen x - widen y| :=
        roundMagnitude_nonneg _ (abs_nonneg _)
      have hfix : roundMagnitude |widen x - widen y| = |widen x - widen y| := by
        unfold doubleSub roundDouble at hrep
        simp only [stdAbs_eq_abs] at hrep
        split_ifs at hrep with h1 h2
        · have h3 := FloatVal.finite.inj hrep
          rw [abs_of_neg h2] at h3 ⊢
          linarith
        · have h3 := FloatVal.finite.inj hrep
          rw [abs_of_nonneg (not_lt.1 h2)] at h3 ⊢
          exact h3
      have hlit : (1 / 1000 : ℚ) < 1152921504606847 / 2 ^ 60 := by norm_num
      have key := roundMagnitude_lt_literal_iff |widen x - widen y| (abs_nonneg _)
      rw [hfix] at key
      exact key.1 (by linarith)

/-- C6, as the claim states it, fails at `N = 32`: `GRID_1D 32` is 2 while
`ceil(32/32)` is 1. -/
theorem GRID_1D_ne_ceil_at_32 : GRID_1D 32 = 2 ∧ ⌈((32 : Nat) : ℚ) / 32⌉₊ = 1 ∧
    ¬ (∀ N : Nat, GRID_1D N = ⌈(N : ℚ) / 32⌉₊) := by
  have h1 : ⌈((32 : Nat) : ℚ) / 32⌉₊ = 1 := by rw [natCeil_div32]; decide
  refine ⟨by decide, h1, fun h => ?_⟩
  have h2 := h 32
  rw [h1] at h2
  exact absurd h2 (by decide)

/-- C6, amended: `GRID_1D N` is `floor(N/32) + 1`; it is `ceil(N/32)` when 32
does not divide `N` and `ceil(N/32) + 1` when 32 divides `N` (`N = 0` included). -/
theorem GRID_1D_eq_floor_succ (N : Nat) :
    GRID_1D N = ⌊(N : ℚ) / 32⌋₊ + 1 ∧
    GRID_1D N = ⌈(N : ℚ) / 32⌉₊ + (if 32 ∣ N then 1 else 0) := by
  constructor
  · have hf : ⌊(N : ℚ) / 32⌋₊ = N / 32 := by
      have hq : ⌊((N : Nat) : ℚ) / ((32 : Nat) : ℚ)⌋₊ = N / 32 := Nat.floor_div_eq_div N 32
      simpa using hq
    rw [hf]; rfl
  · rw [natCeil_div32]
    unfold GRID_1D
    split_ifs <;> omega

/-- C7: the `GRID_1D N` blocks of 32 threads cover every index `i < N`: the
block `i / 32` of index `i` is one of them, and `32 * GRID_1D N ≥ N`. -/
theorem GRID_1D_covers (N i : Nat) (h : i < N) :
    i / 32 < GRID_1D N ∧ N ≤ 32 * GRID_1D N := by
  unfold GRID_1D
  omega

/-- Index 63 of 64 elements lies in block 1 of the 3 blocks launched. -/
theorem GRID_1D_covers_witness : 63 / 32 < GRID_1D 64 ∧ 64 ≤ 32 * GRID_1D 64 :=
  GRID_1D_covers 64 63 (by decide)

/-- C8: `ctanh x` is `cdiv` applied to the numerator `(a, b)` and the
denominator `(1, a * b)` with `a = rtanh x.r`, `b = rtan x.i`; by the code of
`cdiv` both components of the numerator are divided by `1*1 + (a*b)*(a*b)`. -/
theorem ctanh_eq_cdiv {R : Type} [Field R] (rtanh rtan : R → R) (x : CScalar R) :
    ctanh rtanh rtan x =
        cdiv ⟨rtanh x.r, rtan x.i⟩ ⟨1, rtanh x.r * rtan x.i⟩ ∧
    ctanh rtanh rtan x =
        ⟨rtanh x.r / (1 * 1 + rtanh x.r * rtan x.i * (rtanh x.r * rtan x.i)),
         rtan x.i / (1 * 1 + rtanh x.r * rtan x.i * (rtanh x.r * rtan x.i))⟩ :=
  ⟨rfl, rfl⟩

/-- C9, as the claim states it, fails: `launch_permutate_c16` is declared with
the parameters `(CTensor16 X, CTensor16 Y, Permutation P)`, so not every
declaration has `StreamCtx` first. -/
theorem launch_permutate_c16_no_stream :
    (⟨"launch_permutate_c16", [.CTensor16, .CTensor16, .Permutation]⟩ : LaunchDecl)
        ∈ kernelDecls ∧
      ¬ (∀ d ∈ kernelDecls, d.params.head? = some ParamType.StreamCtx) := by
  have hmem : (⟨"launch_permutate_c16", [.CTensor16, .CTensor16, .Permutation]⟩ : LaunchDecl)
      ∈ kernelDecls := by decide
  exact ⟨hmem, fun h => absurd (h _ hmem) (by decide)⟩

/-- C9, amended: of the 52 launch declarations, 48 take a `StreamCtx` first;
the four that do not are the permutation entry points, each declared with two
tensors and a permutation and no `StreamCtx` parameter at all. -/
theorem launch_decls_stream_first_except_permutate :
    kernelDecls.length = 52 ∧
    (kernelDecls.filter (fun d => d.params.head? = some ParamType.StreamCtx)).length = 48 ∧
    kernelDecls.filter (fun d => d.params.head? ≠ some ParamType.StreamCtx) =
      [⟨"launch_perumutate_r16", [.RTensor16, .RTensor16, .Permutation]⟩,
       ⟨"launch_permutate_c16", [.CTensor16, .CTensor16, .Permutation]⟩,
       ⟨"launch_perumutate_r32", [.RTensor32, .RTensor32, .Permutation]⟩,
       ⟨"launch_permutate_c32", [.CTensor32, .CTensor32, .Permutation]⟩] := by
  decide

/-- C10: for any binary operator and `N ≥ 1`, every thread of the block gets
from `blockReduce` the left fold `op (... (op (op c0 c1) c2) ...) c(N-1)` of the
lane-0 `warpReduce` results `cw` of the warps `w = 0, ..., N-1`; for `N = 1`
that is `c0`. -/
theorem blockReduce_left_fold_of_leaders {T : Type} (op : T → T → T) (N : Nat)
    (hN : 1 ≤ N) (value : Nat → Nat → T) (cache : Nat → T) (w l : Nat)
    (hw : w < N) (hl : l < 32) :
    blockReduce op N value cache w l =
        leftFold op (fun s => warpReduce op (value s) 0) (N - 1) ∧
    (N = 1 → blockReduce op N value cache w l = warpReduce op (value 0) 0) := by
  have hfold := blockReduce_eq_leftFold op N hN value cache w l
  refine ⟨hfold, fun h1 => ?_⟩
  rw [hfold, h1]
  rfl

/-- Two warps under subtraction, warp `a` holding `a + 1` at lane 0 and 0 at
the other lanes: the leaders hold `c0 = 1` and `c1 = 2`, and thread (1, 3) gets
`c0 - c1 = -1`. -/
theorem blockReduce_left_fold_of_leaders_witness :
    blockReduce (fun x y : Int => x - y) 2 (fun a b => if b = 0 then (a + 1 : Int) else 0)
      (fun _ => 7) 1 3 = -1 :=
  (blockReduce_left_fold_of_leaders (fun x y : Int => x - y) 2 (by decide)
    (fun a b => if b = 0 then (a + 1 : Int) else 0) (fun _ => 7) 1 3 (by decide)
    (by decide)).1.trans
    (by simp only [leftFold, warpReduce_unroll, shflXorApply]; decide)


/-! Operators, complex functions, signed sums: lemmas -/

theorem MaxOP_apply_eq_max {T : Type} [LinearOrder T] (x y : T) :
    MaxOP.apply x y = max x y := by
  unfold MaxOP.apply
  split_ifs with h
  · exact (max_eq_left (le_of_lt h)).symm
  · exact (max_eq_right (not_lt.1 h)).symm

theorem MinOP_apply_eq_min {T : Type} [LinearOrder T] (x y : T) :
    MinOP.apply x y = min x y := by
  unfold MinOP.apply
  split_ifs with h
  · exact (min_eq_left (le_of_lt h)).symm
  · exact (min_eq_right (not_lt.1 h)).symm

theorem conjmul_pos {K : Type} [LinearOrderedField K] (y : CScalar K)
    (hy : y ≠ ⟨0, 0⟩) : 0 < conjmul y := by
  obtain ⟨a, b⟩ := y
  have hab : a ≠ 0 ∨ b ≠ 0 := by
    by_contra hcon
    push_neg at hcon
    exact hy (by rw [hcon.1, hcon.2])
  show 0 < a * a + b * b
  rcases hab with ha | hb
  · have h1 : 0 < a * a := mul_self_pos.2 ha
    have h2 : 0 ≤ b * b := mul_self_nonneg b
    linarith
  · have h1 : 0 ≤ a * a := mul_self_nonneg a
    have h2 : 0 < b * b := mul_self_pos.2 hb
    linarith

theorem complex_sinh_cosh_mk (x y : ℝ) :
    Complex.sinh ⟨x, y⟩ = ⟨Real.sinh x * Real.cos y, Real.cosh x * Real.sin y⟩ ∧
    Complex.cosh ⟨x, y⟩ = ⟨Real.cosh x * Real.cos y, Real.sinh x * Real.sin y⟩ := by
  rw [Complex.mk_eq_add_mul_I, Complex.sinh_add, Complex.cosh_add, Complex.sinh_mul_I,
    Complex.cosh_mul_I]
  constructor <;> apply Complex.ext <;>
    simp [Complex.sinh_ofReal_re, Complex.cosh_ofReal_re, Complex.cos_ofReal_re,
      Complex.sin_ofReal_re, Complex.sinh_ofReal_im, Complex.cosh_ofReal_im,
      Complex.cos_ofReal_im, Complex.sin_ofReal_im]

/-- With the quotient `x * conj(y) / |y|^2` in place of the code of `cdiv`, the
formula of `ctanh` is the complex hyperbolic tangent wherever `cos x.i ≠ 0`. -/
theorem ctanh_formula_with_cdivSpec (x y : ℝ) (hy : Real.cos y ≠ 0) :
    (⟨(cdivSpec ⟨Real.tanh x, Real.tan y⟩ ⟨1, Real.tanh x * Real.tan y⟩).r,
      (cdivSpec ⟨Real.tanh x, Real.tan y⟩ ⟨1, Real.tanh x * Real.tan y⟩).i⟩ : ℂ) =
      Complex.tanh ⟨x, y⟩ := by
  have hc : 0 < Real.cosh x := Real.cosh_pos x
  have hc0 : Real.cosh x ≠ 0 := ne_of_gt hc
  obtain ⟨hsinh, hcosh⟩ := complex_sinh_cosh_mk x y
  have hne : Complex.cosh ⟨x, y⟩ ≠ 0 := by
    rw [hcosh]
    intro h0
    have h1 := congrArg Complex.re h0
    simp only [Complex.zero_re] at h1
    exact absurd h1 (mul_ne_zero hc0 hy)
  have hden : (1 : ℝ) + Real.tanh x * Real.tan y * (Real.tanh x * Real.tan y) ≠ 0 := by
    have := mul_self_nonneg (Real.tanh x * Real.tan y)
    linarith
  rw [Complex.tanh_eq_sinh_div_cosh, eq_div_iff hne, hsinh, hcosh]
  have hth : Real.tanh x * Real.cosh x = Real.sinh x := by
    rw [Real.tanh_eq_sinh_div_cosh, div_mul_cancel₀ _ hc0]
  have htn : Real.tan y * Real.cos y = Real.sin y := by
    rw [Real.tan_eq_sin_div_cos, div_mul_cancel₀ _ hy]
  apply Complex.ext
  · simp only [cdivSpec, conjmul, Complex.mul_re, mul_one]
    rw [← hth, ← htn, div_mul_eq_mul_div, div_mul_eq_mul_div, ← sub_div, div_eq_iff hden]
    ring
  · simp only [cdivSpec, conjmul, Complex.mul_im, mul_one]
    rw [← hth, ← htn, div_mul_eq_mul_div, div_mul_eq_mul_div, ← add_div, div_eq_iff hden]
    ring

theorem popcount_lt_32 (n : Nat) (h : n < 32) :
    popcount n = n % 2 + n / 2 % 2 + n / 4 % 2 + n / 8 % 2 + n / 16 % 2 := by
  interval_cases n <;> decide

/-- Under subtraction lane `l` of the warp ends with the signed sum of the lane
values, the sign of `v j` being `(-1)^popcount (l xor j)`. -/
theorem warpReduce_sub_eq_signed_sum (v : Nat → Int) (l : Nat) (hl : l < 32) :
    warpReduce (fun x y => SubOP.apply x y) v l =
      ∑ j in Finset.range 32, (-1) ^ popcount (l ^^^ j) * v j := by
  rw [warpReduce_unroll]
  interval_cases l <;>
    simp (disch := decide) only [shflXorApply, SubOP.apply, Finset.sum_range_succ,
      Finset.sum_range_zero, Nat.reduceXor, popcount_lt_32, Nat.reduceDiv, Nat.reduceMod,
      Nat.reduceAdd, pow_zero, pow_one, one_mul, neg_mul, zero_add, Int.reducePow,
      Int.reduceNeg] <;>
    ring

/-- The last exchange, at mask 1, makes the two lanes of a pair end with
opposite values. -/
theorem warpReduce_sub_xor_one (v : Nat → Int) (l : Nat) :
    warpReduce (fun x y => SubOP.apply x y) v (l ^^^ 1) =
      - warpReduce (fun x y => SubOP.apply x y) v l := by
  rw [warpReduce_unroll]
  have hx : l ^^^ 1 ^^^ 1 = l := by
    rw [Nat.xor_assoc, Nat.xor_self, Nat.xor_zero]
  simp only [shflXorApply, SubOP.apply] at *
  rw [hx]
  ring

/-! Checked claims, continued -/

/-- C11: at `x = (1, π/4)`, with the exact real `tanh` and `tan`, the value of
`ctanh` read as a complex number differs from the complex hyperbolic tangent
of `1 + (π/4) i`. -/
theorem ctanh_ne_complex_tanh :
    ∃ x : CScalar ℝ,
      (⟨(ctanh Real.tanh Real.tan x).r, (ctanh Real.tanh Real.tan x).i⟩ : ℂ) ≠
        Complex.tanh ⟨x.r, x.i⟩ := by
  refine ⟨⟨1, Real.pi / 4⟩, fun h => ?_⟩
  have hs : 0 < Real.sinh 1 := Real.sinh_pos_iff.2 one_pos
  have hc : 0 < Real.cosh 1 := Real.cosh_pos 1
  have hk : 0 < Real.cos (Real.pi / 4) := by
    rw [Real.cos_pi_div_four]; positivity
  have hsc : Real.sin (Real.pi / 4) = Real.cos (Real.pi / 4) := by
    rw [Real.sin_pi_div_four, Real.cos_pi_div_four]
  obtain ⟨hsinh, hcosh⟩ := complex_sinh_cosh_mk 1 (Real.pi / 4)
  have hne : Complex.cosh ⟨1, Real.pi / 4⟩ ≠ 0 := by
    rw [hcosh]
    intro h0
    have h1 := congrArg Complex.re h0
    simp only [Complex.zero_re] at h1
    exact absurd h1 (ne_of_gt (mul_pos hc hk))
  rw [Complex.tanh_eq_sinh_div_cosh, eq_div_iff hne, hsinh, hcosh] at h
  have hre := congrArg Complex.re h
  simp only [ctanh, cdiv, conjmul, Real.tan_pi_div_four, Real.tanh_eq_sinh_div_cosh,
    Complex.mul_re, hsc, mul_one] at hre
  have hpos : 0 < Real.sinh 1 * Real.cos (Real.pi / 4) := mul_pos hs hk
  have hzero : Real.sinh 1 / Real.cosh 1 / (1 + Real.sinh 1 / Real.cosh 1 * (Real.sinh 1 / Real.cosh 1)) *
        (Real.cosh 1 * Real.cos (Real.pi / 4)) -
      1 / (1 + Real.sinh 1 / Real.cosh 1 * (Real.sinh 1 / Real.cosh 1)) *
        (Real.sinh 1 * Real.cos (Real.pi / 4)) = 0 := by
    field_simp
    ring
  rw [hzero] at hre
  exact absurd hre (ne_of_lt hpos)

/-- C12: over a linearly ordered commutative ring (the integers, the rationals),
`MaxOP::apply` returns the larger and `MinOP::apply` the smaller argument, and
each of `MaxOP`, `MinOP`, `AddOP`, `MulOP` is commutative and associative. -/
theorem reduction_ops_assoc_comm {T : Type} [LinearOrderedCommRing T] (x y z : T) :
    (MaxOP.apply x y = max x y ∧ MinOP.apply x y = min x y) ∧
    (MaxOP.apply x y = MaxOP.apply y x ∧
      MaxOP.apply (MaxOP.apply x y) z = MaxOP.apply x (MaxOP.apply y z)) ∧
    (MinOP.apply x y = MinOP.apply y x ∧
      MinOP.apply (MinOP.apply x y) z = MinOP.apply x (MinOP.apply y z)) ∧
    (AddOP.apply x y = AddOP.apply y x ∧
      AddOP.apply (AddOP.apply x y) z = AddOP.apply x (AddOP.apply y z)) ∧
    (MulOP.apply x y = MulOP.apply y x ∧
      MulOP.apply (MulOP.apply x y) z = MulOP.apply x (MulOP.apply y z)) := by
  refine ⟨⟨MaxOP_apply_eq_max x y, MinOP_apply_eq_min x y⟩, ⟨?_, ?_⟩, ⟨?_, ?_⟩, ⟨?_, ?_⟩,
    ⟨?_, ?_⟩⟩
  · rw [MaxOP_apply_eq_max, MaxOP_apply_eq_max, max_comm]
  · simp only [MaxOP_apply_eq_max, max_assoc]
  · rw [MinOP_apply_eq_min, MinOP_apply_eq_min, min_comm]
  · simp only [MinOP_apply_eq_min, min_assoc]
  · exact add_comm x y
  · exact add_assoc x y z
  · exact mul_comm x y
  · exact mul_assoc x y z

/-- C13: the bit pattern 31744 of `Init<r16>::infinity()` has sign bit 0,
exponent field 31 (all five bits set) and fraction field 0, and read as a
binary16 value it is positive infinity. -/
theorem Init_r16_infinity_is_pos_inf :
    Init_r16.inf_result = 31744 ∧
    signField 5 10 Init_r16.inf_result = 0 ∧
    exponentField 5 10 Init_r16.inf_result = 31 ∧
    fractionField 10 Init_r16.inf_result = 0 ∧
    Init_r16.infinity = FloatVal.inf false := by
  refine ⟨rfl, by decide, by decide, by decide, ?_⟩
  simp [Init_r16.infinity, Init_r16.inf_result, halfOfBits, ieeeDecode, signField,
    exponentField, fractionField]

/-- C14: `HandleError` returns without printing on success and on every other
status prints message, file and line and calls `exit(EXIT_FAILURE)`;
`handleCUResultError` returns without printing on success, but on every other
status it dereferences its null pointer `msg` with nothing printed and `exit`
not reached. -/
theorem handleCUResultError_null_deref :
    (∀ (tbl : Nat → String) (file : String) (line : Nat),
      HandleError tbl cudaSuccess file line = Outcome.returned []) ∧
    (∀ (tbl : Nat → String) (err : Nat) (file : String) (line : Nat), err ≠ cudaSuccess →
      HandleError tbl err file line =
        Outcome.exited [tbl err, " in ", file, " at line ", toString line, "\n"] EXIT_FAILURE) ∧
    (∀ (tbl : Nat → Option String) (file : String) (line : Nat),
      handleCUResultError tbl CUDA_SUCCESS file line = Outcome.returned []) ∧
    (∀ (tbl : Nat → Option String) (err : Nat) (file : String) (line : Nat),
      err ≠ CUDA_SUCCESS → handleCUResultError tbl err file line = Outcome.nullDeref []) ∧
    handleCUResultError (fun _ => some "invalid argument") 1 "kernel.cu" 42 =
      Outcome.nullDeref [] := by
  refine ⟨fun tbl file line => ?_, fun tbl err file line h => ?_, fun tbl file line => ?_,
    fun tbl err file line h => ?_, ?_⟩
  · simp [HandleError]
  · simp [HandleError, h]
  · simp [handleCUResultError]
  · simp [handleCUResultError, h, cuGetErrorString]
  · simp [handleCUResultError, cuGetErrorString, CUDA_SUCCESS]

/-- C15: over an ordered field `conjmul y` is positive for every `y` other than
`(0, 0)` and zero only at `(0, 0)`; so `cdiv x y`, which divides both components
of `x` by `conjmul y`, divides by a nonzero value when `y` is not `(0, 0)`; and
the divisor of `ctanh`, `conjmul (1, a*b) = 1 + (a*b)^2`, is at least 1. -/
theorem conjmul_pos_and_divisors {K : Type} [LinearOrderedField K]
    (rtanh rtan : K → K) (x y : CScalar K) :
    (y ≠ ⟨0, 0⟩ → 0 < conjmul y) ∧
    (conjmul y = 0 ↔ y = ⟨0, 0⟩) ∧
    (cdiv x y = ⟨x.r / conjmul y, x.i / conjmul y⟩ ∧ (y ≠ ⟨0, 0⟩ → conjmul y ≠ 0)) ∧
    (ctanh rtanh rtan x =
        ⟨rtanh x.r / conjmul ⟨1, rtanh x.r * rtan x.i⟩,
         rtan x.i / conjmul ⟨1, rtanh x.r * rtan x.i⟩⟩ ∧
      conjmul (⟨1, rtanh x.r * rtan x.i⟩ : CScalar K) = 1 + (rtanh x.r * rtan x.i) ^ 2 ∧
      1 ≤ conjmul (⟨1, rtanh x.r * rtan x.i⟩ : CScalar K)) := by
  refine ⟨conjmul_pos y, ⟨fun h0 => ?_, fun hy => ?_⟩, ⟨rfl, fun hy => ?_⟩, rfl, ?_, ?_⟩
  · by_contra hy
    exact absurd h0 (ne_of_gt (conjmul_pos y hy))
  · rw [hy]
    simp [conjmul]
  · exact ne_of_gt (conjmul_pos y hy)
  · simp only [conjmul]
    ring
  · simp only [conjmul]
    nlinarith [mul_self_nonneg (rtanh x.r * rtan x.i)]

/-- C16: under `SubOP` on integers lane `l` of the 32-lane warp ends with the
signed sum of all lane values, `v j` taken with sign `(-1)^popcount (l xor j)`;
lane `l xor 1` ends with the negation of what lane `l` ends with, so the two
agree only when that value is 0; and for some input the lanes do not all end
with one value. -/
theorem warpReduce_sub_signed_sum (v : Nat → Int) (l : Nat) (hl : l < 32) :
    warpReduce (fun x y => SubOP.apply x y) v l =
        ∑ j in Finset.range 32, (-1) ^ popcount (l ^^^ j) * v j ∧
    warpReduce (fun x y => SubOP.apply x y) v (l ^^^ 1) =
        - warpReduce (fun x y => SubOP.apply x y) v l ∧
    (warpReduce (fun x y => SubOP.apply x y) v (l ^^^ 1) =
        warpReduce (fun x y => SubOP.apply x y) v l ↔
      warpReduce (fun x y => SubOP.apply x y) v l = 0) ∧
    (∃ u : Nat → Int, warpReduce (fun x y => SubOP.apply x y) u 0 ≠
        warpReduce (fun x y => SubOP.apply x y) u 1) := by
  refine ⟨warpReduce_sub_eq_signed_sum v l hl, warpReduce_sub_xor_one v l, ?_, ?_⟩
  · rw [warpReduce_sub_xor_one v l]
    constructor
    · intro h
      omega
    · intro h
      rw [h]
      rfl
  · refine ⟨fun j => if j = 0 then 1 else 0, ?_⟩
    rw [warpReduce_sub_eq_signed_sum _ 0 (by decide), warpReduce_sub_eq_signed_sum _ 1 (by decide)]
    decide

/-- Lane 3 of a warp holding 7 at lane 5 and 0 elsewhere ends with
`(-1)^popcount 6 * 7 = 7`. -/
theorem warpReduce_sub_signed_sum_witness :
    warpReduce (fun x y => SubOP.apply x y) (fun j => if j = 5 then (7 : Int) else 0) 3 = 7 :=
  (warpReduce_sub_signed_sum (fun j => if j = 5 then (7 : Int) else 0) 3 (by decide)).1.trans
    (by decide)

/-- C17: `ClipOP::apply x lower upper` is `min (max x lower) upper`; when
`lower ≤ upper` the result lies in `[lower, upper]`, is `x` for `x` in that
interval, `lower` for `x < lower` and `upper` for `x > upper`; when
`lower > upper` the result is `upper` whatever `x` is. -/
theorem ClipOP_apply_clamps {T : Type} [LinearOrder T] (x lower upper : T) :
    ClipOP.apply x lower upper = min (max x lower) upper ∧
    (lower ≤ upper →
      (lower ≤ ClipOP.apply x lower upper ∧ ClipOP.apply x lower upper ≤ upper) ∧
      (lower ≤ x ∧ x ≤ upper → ClipOP.apply x lower upper = x) ∧
      (x < lower → ClipOP.apply x lower upper = lower) ∧
      (upper < x → ClipOP.apply x lower upper = upper)) ∧
    (upper < lower → ClipOP.apply x lower upper = upper) := by
  have hclip : ClipOP.apply x lower upper = min (max x lower) upper := by
    unfold ClipOP.apply
    rw [MinOP_apply_eq_min, MaxOP_apply_eq_max]
  rw [hclip]
  refine ⟨rfl, fun hle => ⟨⟨?_, ?_⟩, ?_, ?_, ?_⟩, fun hlt => ?_⟩
  · exact le_min (le_max_right x lower) hle
  · exact min_le_right _ _
  · rintro ⟨h1, h2⟩
    rw [max_eq_left h1, min_eq_left h2]
  · intro h
    rw [max_eq_right (le_of_lt h), min_eq_left hle]
  · intro h
    exact min_eq_right (le_trans (le_of_lt h) (le_max_left x lower))
  · exact min_eq_right (le_trans (le_of_lt hlt) (le_max_right x lower))

/-- C18: `epsEql` is reflexive and symmetric but not transitive: on the exact
values 0, 0.0006, 0.0012 the first two and the last two compare equal while the
first and the last do not. -/
theorem epsEql_refl_symm_not_trans :
    (∀ (T : Type) (widen : T → ℚ) (x : T), epsEql widen x x = true) ∧
    (∀ (T : Type) (widen : T → ℚ) (x y : T), epsEql widen x y = epsEql widen y x) ∧
    (epsEql id (0 : ℚ) 0.0006 = true ∧ epsEql id (0.0006 : ℚ) 0.0012 = true ∧
      epsEql id (0 : ℚ) 0.0012 = false) ∧
    ¬ (∀ x y z : ℚ, epsEql id x y = true → epsEql id y z = true → epsEql id x z = true) := by
  have h1 : epsEql id (0 : ℚ) 0.0006 = true := by
    rw [epsEql_true_iff]
    simp only [id]
    norm_num [abs_lt]
  have h2 : epsEql id (0.0006 : ℚ) 0.0012 = true := by
    rw [epsEql_true_iff]
    simp only [id]
    norm_num [abs_lt]
  have h3 : epsEql id (0 : ℚ) 0.0012 = false := by
    rw [epsEql_false_iff]
    simp only [id]
    norm_num [le_abs]
  refine ⟨fun T widen x => ?_, fun T widen x y => ?_, ⟨h1, h2, h3⟩, fun htr => ?_⟩
  · rw [epsEql_true_iff, sub_self, abs_zero]
    norm_num
  · rw [Bool.eq_iff_iff, epsEql_true_iff, epsEql_true_iff, abs_sub_comm]
  · have h4 := htr 0 0.0006 0.0012 h1 h2
    rw [h3] at h4
    exact Bool.false_ne_true h4

/-- C19: the bit pattern 1024 of `Init<r16>::epsilon()` has sign 0, exponent
field 1 and fraction 0; read as binary16 it is `2^-14`, and every smaller
pattern has exponent field 0, so it is the smallest positive normal number. It
is not the binary16 machine epsilon `2^-10`, whose pattern is 5120, whereas
`Init<r32>::epsilon()` and `Init<r64>::epsilon()` are the machine epsilons
`2^-23` and `2^-52` of their formats. -/
theorem Init_r16_epsilon_is_min_normal :
    Init_r16.eps_result = 1024 ∧
    (signField 5 10 Init_r16.eps_result = 0 ∧ exponentField 5 10 Init_r16.eps_result = 1 ∧
      fractionField 10 Init_r16.eps_result = 0) ∧
    Init_r16.epsilon = FloatVal.finite (1 / 2 ^ 14) ∧
    (∀ b, b < Init_r16.eps_result → exponentField 5 10 b = 0) ∧
    (numericLimitsEpsilon 5 10 = 1 / 2 ^ 10 ∧ halfOfBits 5120 = FloatVal.finite (1 / 2 ^ 10) ∧
      Init_r16.epsilon ≠ FloatVal.finite (numericLimitsEpsilon 5 10)) ∧
    (Init_r32.epsilon = 1 / 2 ^ 23 ∧ Init_r64.epsilon = 1 / 2 ^ 52) := by
  have heps : Init_r16.epsilon = FloatVal.finite (1 / 2 ^ 14) := by
    simp [Init_r16.epsilon, Init_r16.eps_result, halfOfBits, ieeeDecode, signField,
      exponentField, fractionField, exponentBias]
    norm_num
  have hme : numericLimitsEpsilon 5 10 = 1 / 2 ^ 10 := by
    simp [numericLimitsEpsilon, bitsOfOne, ieeeDecode, signField,
      exponentField, fractionField, exponentBias, FloatVal.toRat]
    norm_num
  refine ⟨rfl, ⟨by decide, by decide, by decide⟩, heps, ?_, ⟨hme, ?_, ?_⟩, ?_, ?_⟩
  · intro b hb
    have hb2 : b < 1024 := hb
    unfold exponentField
    omega
  · simp [halfOfBits, ieeeDecode, signField, exponentField, fractionField, exponentBias]
    norm_num
  · rw [heps, hme]
    intro h
    have h2 := FloatVal.finite.inj h
    norm_num at h2
  · simp [Init_r32.epsilon, numericLimitsEpsilon, bitsOfOne, ieeeDecode, signField,
      exponentField, fractionField, exponentBias, FloatVal.toRat]
    norm_num
  · simp [Init_r64.epsilon, numericLimitsEpsilon, bitsOfOne, ieeeDecode, signField,
      exponentField, fractionField, exponentBias, FloatVal.toRat]
    norm_num

end Metaphor
